import Mathlib

/-!
Verification development for the si-spec generation pipeline
(`generateSiSpecs` and `generateSiSpecForService`).

The orchestration code (the spec-building loop, the ordered pipeline
stages, the write loop with its error handling and reporting) is embedded
directly from the source of `generateSiSpecs`.  The individual pipeline
step functions live in modules outside the provided sources; those are
modelled from the specification, as noted on each definition.
-/

/-- Flags carried by a raw-schema property node: required, read-only and
primary-identifier markers. -/
structure CfFlags where
  required : Bool := false
  readOnly : Bool := false
  primaryId : Bool := false

/-- Shape of a raw-schema property: scalar kinds, object with named fields,
array of an element shape, map of a value shape, a reference to a named
definition of the owning schema, or an unrecognized shape. -/
inductive CfShape where
  | string : CfShape
  | number : CfShape
  | boolean : CfShape
  | object : List (String × CfFlags × CfShape) → CfShape
  | array : CfShape → CfShape
  | map : CfShape → CfShape
  | ref : String → CfShape
  | unknown : CfShape

/-- A raw cloud-resource schema: a type name, named auxiliary shape
definitions (targets of `CfShape.ref`, through which self-reference can
occur), and the top-level property fields. -/
structure RawSchema where
  typeName : String
  defs : List (String × CfShape)
  props : List (String × CfFlags × CfShape)

/-- Kind of a node in the translated property tree.  `refTo` marks a
property replaced by a reference to an extracted sub-asset. -/
inductive PropKind where
  | string : PropKind
  | number : PropKind
  | boolean : PropKind
  | object : PropKind
  | array : PropKind
  | map : PropKind
  | refTo : String → PropKind
deriving DecidableEq, Repr

/-- A node of a property tree in flattened form: the stable path from the
owning spec root, the node kind, and the three flags. -/
structure PropEntry where
  path : List String
  kind : PropKind
  required : Bool
  readOnly : Bool
  primaryId : Bool
deriving DecidableEq, Repr

/-- Direction of a connection socket. -/
inductive SocketDir where
  | input : SocketDir
  | output : SocketDir
deriving DecidableEq, Repr

/-- Scalar value type carried by a socket. -/
inductive SocketType where
  | string : SocketType
  | number : SocketType
  | boolean : SocketType
deriving DecidableEq, Repr

/-- A named, typed, directional connection point. -/
structure SocketSpec where
  name : String
  dir : SocketDir
  ty : SocketType
deriving DecidableEq, Repr

/-- Kind of a behavioral function bound to a spec. -/
inductive FuncKind where
  | action : FuncKind
  | leaf : FuncKind
  | management : FuncKind
  | asset : FuncKind
  | intrinsic : FuncKind
deriving DecidableEq, Repr

/-- A named behavioral unit bound to a spec. -/
structure FuncSpec where
  name : String
  kind : FuncKind
  code : String
deriving DecidableEq, Repr

/-- The unit of pipeline output: a package specification. -/
structure PkgSpec where
  name : String
  schemaId : Option Nat
  props : List PropEntry
  sockets : List SocketSpec
  funcs : List FuncSpec
  parent : Option String
  warnings : List String
deriving DecidableEq, Repr

/-- Failure raised by the Spec Builder on one raw schema. -/
inductive TranslationError where
  | unrecognizedShape : List String → TranslationError
  | depthExceeded : List String → TranslationError
deriving DecidableEq, Repr

mutual

/-- Modelled from the spec: the recursive core of the Spec Builder
`pkgSpecFromCf` (module specPipeline, not among the provided sources).
Translates one raw property shape at a path into flattened property
entries; object maps to Object, array to Array(element), map to Map,
scalars map directly; a reference is expanded through the schema
definitions.  Recursion is fuel-bounded; exhausting the bound fails with
a depth error and an unrecognized shape fails with a shape error. -/
def translateShape (defs : List (String × CfShape)) :
    Nat → List String → CfFlags → CfShape →
    Except TranslationError (List PropEntry)
  | 0, path, _, _ => .error (.depthExceeded path)
  | _ + 1, path, fl, .string =>
      .ok [⟨path, .string, fl.required, fl.readOnly, fl.primaryId⟩]
  | _ + 1, path, fl, .number =>
      .ok [⟨path, .number, fl.required, fl.readOnly, fl.primaryId⟩]
  | _ + 1, path, fl, .boolean =>
      .ok [⟨path, .boolean, fl.required, fl.readOnly, fl.primaryId⟩]
  | fuel + 1, path, fl, .object fields =>
      match translateFields defs fuel path fields with
      | .ok children =>
          .ok (⟨path, .object, fl.required, fl.readOnly, fl.primaryId⟩ :: children)
      | .error e => .error e
  | fuel + 1, path, fl, .array elem =>
      match translateShape defs fuel (path ++ ["*"]) {} elem with
      | .ok sub =>
          .ok (⟨path, .array, fl.required, fl.readOnly, fl.primaryId⟩ :: sub)
      | .error e => .error e
  | fuel + 1, path, fl, .map value =>
      match translateShape defs fuel (path ++ ["#"]) {} value with
      | .ok sub =>
          .ok (⟨path, .map, fl.required, fl.readOnly, fl.primaryId⟩ :: sub)
      | .error e => .error e
  | fuel + 1, path, fl, .ref n =>
      match defs.find? (fun d => decide (d.1 = n)) with
      | some d => translateShape defs fuel path fl d.2
      | none => .error (.unrecognizedShape path)
  | _ + 1, path, _, .unknown => .error (.unrecognizedShape path)

/-- Modelled from the spec: translation of a list of named fields of an
object shape, in declared order; the first failing field aborts this
schema (and only this schema). -/
def translateFields (defs : List (String × CfShape)) :
    Nat → List String → List (String × CfFlags × CfShape) →
    Except TranslationError (List PropEntry)
  | _, _, [] => .ok []
  | 0, path, _ :: _ => .error (.depthExceeded path)
  | fuel + 1, path, f :: rest =>
      match translateShape defs fuel (path ++ [f.1]) f.2.1 f.2.2 with
      | .ok sub =>
          match translateFields defs fuel path rest with
          | .ok more => .ok (sub ++ more)
          | .error e => .error e
      | .error e => .error e

end

/-- Bound on translation recursion depth. -/
def maxTranslationDepth : Nat := 256

/-- Modelled from the spec: the Spec Builder `pkgSpecFromCf` (module
specPipeline, not among the provided sources).  Translates one raw schema
into one draft PkgSpec named after the schema type name, with the
property tree built recursively from the raw property tree, an empty
socket set, no functions, no parent and no schema id yet. -/
def pkgSpecFromCf (cf : RawSchema) : Except TranslationError PkgSpec :=
  match translateFields cf.defs maxTranslationDepth [] cf.props with
  | .ok entries =>
      .ok { name := cf.typeName, schemaId := none, props := entries,
            sockets := [], funcs := [], parent := none, warnings := [] }
  | .error e => .error e

/-- Insert an element into a list unless an element with the same key is
already present; used to keep name-keyed collections duplicate-free. -/
def addIfMissingBy {α β : Type} [DecidableEq β] (key : α → β)
    (l : List α) (x : α) : List α :=
  if l.any (fun y => decide (key y = key x)) then l else l ++ [x]

/-- Key of a socket for duplicate detection: name and direction. -/
def socketKey (k : SocketSpec) : String × SocketDir := (k.name, k.dir)

/-- Add a socket unless one with the same name and direction exists. -/
def addSocketIfMissing (sockets : List SocketSpec) (k : SocketSpec) :
    List SocketSpec :=
  addIfMissingBy socketKey sockets k

/-- Add a property entry unless one with the same path exists. -/
def addPropIfMissing (props : List PropEntry) (p : PropEntry) :
    List PropEntry :=
  addIfMissingBy PropEntry.path props p

/-- Add a function unless one with the same name exists. -/
def addFuncIfMissing (funcs : List FuncSpec) (f : FuncSpec) :
    List FuncSpec :=
  addIfMissingBy FuncSpec.name funcs f

/-- Scalar socket type of a property kind, none for non-scalar kinds. -/
def scalarSocketType : PropKind → Option SocketType
  | .string => some .string
  | .number => some .number
  | .boolean => some .boolean
  | _ => none

/-- Normalized socket name derived from a property path. -/
def normalizeSocketName (path : List String) : String :=
  String.intercalate "." path

/-- Replace any same-keyed socket with the given one (last write wins). -/
def upsertSocket (sockets : List SocketSpec) (k : SocketSpec) :
    List SocketSpec :=
  sockets.filter (fun s => decide (socketKey s ≠ socketKey k)) ++ [k]

/-- Modelled from the spec: per-spec body of the Output-Socket Deriver
`generateOutputSocketsFromResourceProps` (module
pipeline-steps/generateSocketsFromResourceProps, not among the provided
sources).  Scans the property tree in declared order; a read-only or
primary-identifier scalar property yields one output socket named from
its normalized path and typed by its scalar kind, with last write winning
on a name collision; a non-scalar read-only property yields a warning and
no socket. -/
def deriveOutputSockets (s : PkgSpec) : PkgSpec :=
  s.props.foldl (fun acc e =>
    if e.readOnly || e.primaryId then
      match scalarSocketType e.kind with
      | some t =>
          { acc with sockets :=
              upsertSocket acc.sockets ⟨normalizeSocketName e.path, .output, t⟩ }
      | none =>
          { acc with warnings := acc.warnings ++
              ["non-scalar read-only property skipped: " ++
                normalizeSocketName e.path] }
    else acc) s

/-- Modelled from the spec: the Output-Socket Deriver stage. -/
def generateOutputSocketsFromResourceProps (specs : List PkgSpec) :
    List PkgSpec :=
  specs.map deriveOutputSockets

/-- Modelled from the spec: the fixed set of platform-standard properties
added by the Default Augmenter (a free-form metadata container). -/
def defaultProps : List PropEntry :=
  [⟨["extra"], .object, false, false, false⟩]

/-- Modelled from the spec: the fixed set of platform-standard sockets
added by the Default Augmenter (a credential input). -/
def defaultSockets : List SocketSpec :=
  [⟨"Credential", .input, .string⟩]

/-- Modelled from the spec: per-spec body of the Default Augmenter. -/
def augmentSpec (s : PkgSpec) : PkgSpec :=
  { s with props := defaultProps.foldl addPropIfMissing s.props,
           sockets := defaultSockets.foldl addSocketIfMissing s.sockets }

/-- Modelled from the spec: the Default Augmenter
`addDefaultPropsAndSockets` (module
pipeline-steps/addDefaultPropsAndSockets, not among the provided
sources).  Adds the fixed platform-standard properties and sockets to
every spec, keyed by name so no duplicates are introduced. -/
def addDefaultPropsAndSockets (specs : List PkgSpec) : List PkgSpec :=
  specs.map augmentSpec

/-- Make a function stub of a given kind and name. -/
def mkFunc (k : FuncKind) (n : String) : FuncSpec := ⟨n, k, ""⟩

/-- Add one function stub per name to a spec, keyed by name. -/
def addFuncs (k : FuncKind) (names : List String) (s : PkgSpec) : PkgSpec :=
  { s with funcs := (names.map (mkFunc k)).foldl addFuncIfMissing s.funcs }

/-- Modelled from the spec: the fixed menu of lifecycle action names. -/
def actionFuncNames : List String :=
  ["awsCloudControlCreate", "awsCloudControlRead",
   "awsCloudControlUpdate", "awsCloudControlDelete"]

/-- Modelled from the spec: the fixed menu of leaf function names. -/
def leafFuncNames : List String :=
  ["awsQualification", "awsCodeGeneration"]

/-- Modelled from the spec: the fixed menu of management function names. -/
def managementFuncNames : List String :=
  ["awsDiscover", "awsImport"]

/-- Modelled from the spec: the fixed set of intrinsic function names. -/
def intrinsicFuncNames : List String :=
  ["siIdentity", "siSetString", "siUnset"]

/-- Modelled from the spec: the Action Function Generator
`generateDefaultActionFuncs` (module pipeline-steps/generateActionFuncs,
not among the provided sources).  Attaches the fixed menu of default
lifecycle action function stubs to every spec. -/
def generateDefaultActionFuncs (specs : List PkgSpec) : List PkgSpec :=
  specs.map (addFuncs .action actionFuncNames)

/-- Modelled from the spec: the Leaf Function Generator
`generateDefaultLeafFuncs` (module pipeline-steps/generateLeafFuncs, not
among the provided sources). -/
def generateDefaultLeafFuncs (specs : List PkgSpec) : List PkgSpec :=
  specs.map (addFuncs .leaf leafFuncNames)

/-- Modelled from the spec: the Management Function Generator
`generateDefaultManagementFuncs` (module
pipeline-steps/generateManagementFuncs, not among the provided
sources). -/
def generateDefaultManagementFuncs (specs : List PkgSpec) : List PkgSpec :=
  specs.map (addFuncs .management managementFuncNames)

/-- Modelled from the spec: the Intrinsic Function Attacher
`generateIntrinsicFuncs` (module pipeline-steps/generateIntrinsicFuncs,
not among the provided sources).  Attaches the fixed set of intrinsic
functions to every spec in the collection, keyed by name so a second
application introduces no duplicates. -/
def generateIntrinsicFuncs (specs : List PkgSpec) : List PkgSpec :=
  specs.map (addFuncs .intrinsic intrinsicFuncNames)

/-- True when `p` is a strict prefix of `q` (one path strictly above
another in the property tree). -/
def strictlyAbove (p q : List String) : Bool :=
  p.isPrefixOf q && decide (p ≠ q)

/-- Number of direct children of the node at path `p`. -/
def directChildCount (props : List PropEntry) (p : List String) : Nat :=
  (props.filter (fun e =>
    decide (e.path.length = p.length + 1) && p.isPrefixOf e.path)).length

/-- Modelled from the spec: the configurable promotion threshold of the
Sub-Asset Extractor (a non-trivial direct field count). -/
def subAssetThreshold : Nat := 2

/-- A nested object entry qualifies as an extraction candidate when its
direct field count reaches the promotion threshold. -/
def isCandidate (props : List PropEntry) (e : PropEntry) : Bool :=
  decide (e.kind = PropKind.object) &&
    decide (subAssetThreshold ≤ directChildCount props e.path)

/-- A candidate qualifies for promotion when no candidate lies strictly
above it (an enclosing candidate is extracted instead, taking the nested
shape along inside it). -/
def isPromotable (props : List PropEntry) (e : PropEntry) : Bool :=
  isCandidate props e &&
    !(props.any (fun c => isCandidate props c && strictlyAbove c.path e.path))

/-- The structural shape of the subtree below path `p`: all entries
strictly below `p`, with their paths made relative to `p`.  Structural
identity of two nested shapes is equality of these relative entry lists;
this plays the role of the structural hash used for dedup. -/
def shapeAt (props : List PropEntry) (p : List String) : List PropEntry :=
  props.filterMap (fun e =>
    if strictlyAbove p e.path then some { e with path := e.path.drop p.length }
    else none)

/-- One record of the sub-asset dedup table: the structural shape, the
name of the sub-asset spec created for it, and the name of the parent
spec of its first occurrence (the recorded lineage). -/
structure SubAssetEntry where
  shape : List PropEntry
  subName : String
  parentName : String
deriving DecidableEq, Repr

/-- Name given to the sub-asset extracted for an occurrence: the last
segment of the occurrence path. -/
def subAssetNameFor (e : PropEntry) : String :=
  match e.path.getLast? with
  | some seg => seg
  | none => "sub"

/-- Look up the sub-asset name recorded for a structural shape. -/
def lookupShape (table : List SubAssetEntry) (shape : List PropEntry) :
    Option String :=
  (table.find? (fun t => decide (t.shape = shape))).map SubAssetEntry.subName

/-- Fold one spec into the dedup table: record each promotable shape not
seen before, in declared order. -/
def collectSpecShapes (table : List SubAssetEntry) (s : PkgSpec) :
    List SubAssetEntry :=
  s.props.foldl (fun tb e =>
    if isPromotable s.props e &&
        (lookupShape tb (shapeAt s.props e.path)).isNone then
      tb ++ [⟨shapeAt s.props e.path, subAssetNameFor e, s.name⟩]
    else tb) table

/-- Build the full dedup table over the collection. -/
def collectShapes (specs : List PkgSpec) : List SubAssetEntry :=
  specs.foldl collectSpecShapes []

/-- Rewrite one spec against the dedup table: entries strictly below a
promotable candidate are removed, each promotable candidate becomes a
reference to the sub-asset recorded for its shape, and everything else is
kept. -/
def rewriteSpec (table : List SubAssetEntry) (s : PkgSpec) : PkgSpec :=
  { s with props := s.props.filterMap (fun e =>
      if s.props.any (fun c => isPromotable s.props c && strictlyAbove c.path e.path)
      then none
      else if isPromotable s.props e then
        match lookupShape table (shapeAt s.props e.path) with
        | some n => some { e with kind := .refTo n }
        | none => some e
      else some e) }

/-- The independent spec created for one sub-asset table record, carrying
the nested structure and the parent lineage. -/
def mkSubAsset (t : SubAssetEntry) : PkgSpec :=
  { name := t.subName, schemaId := none, props := t.shape,
    sockets := [], funcs := [], parent := some t.parentName, warnings := [] }

/-- Modelled from the spec: the Sub-Asset Extractor `generateSubAssets`
(module pipeline-steps/generateSubAssets, not among the provided
sources).  Detects nested Object (including array-element object) shapes
qualifying for promotion, dedups them by structural shape across the
whole collection, replaces each occurrence by a reference to the single
sub-asset created for the shape, and appends the new sub-asset specs to
the collection with parent lineage recorded. -/
def generateSubAssets (specs : List PkgSpec) : List PkgSpec :=
  let table := collectShapes specs
  specs.map (rewriteSpec table) ++ table.map mkSubAsset

/-- One record of the global output-socket index: socket name, socket
type, name of the owning spec. -/
structure OutEntry where
  name : String
  ty : SocketType
  owner : String
deriving DecidableEq, Repr

/-- Build the global index of every output socket in the collection. -/
def outputIndex (specs : List PkgSpec) : List OutEntry :=
  (specs.map (fun s =>
    (s.sockets.filter (fun k => decide (k.dir = SocketDir.output))).map
      (fun k => OutEntry.mk k.name k.ty s.name))).flatten

/-- Modelled from the spec: the dependencies a spec declares — each
top-level scalar property that is neither read-only nor a primary
identifier implies a need for a same-typed value produced elsewhere. -/
def needsOf (s : PkgSpec) : List (String × SocketType) :=
  s.props.filterMap (fun e =>
    if e.path.length = 1 ∧ e.readOnly = false ∧ e.primaryId = false then
      (scalarSocketType e.kind).map (fun t => (normalizeSocketName e.path, t))
    else none)

/-- Output sockets of other specs exactly matching a need by normalized
name and type. -/
def matchesFor (idx : List OutEntry) (specName : String)
    (need : String × SocketType) : List OutEntry :=
  idx.filter (fun o =>
    decide (o.name = need.1 ∧ o.ty = need.2 ∧ o.owner ≠ specName))

/-- Warning recorded when several output sockets qualify for one need. -/
def ambiguityWarning (need : String × SocketType) : String :=
  "ambiguous input socket match: " ++ need.1

/-- Modelled from the spec: per-spec body of the Input-Socket Resolver.
A need matched by exactly one output socket elsewhere gets an input
socket; a need matched by more than one gets no socket and a recorded
warning; an unmatched need gets nothing. -/
def resolveSpec (idx : List OutEntry) (s : PkgSpec) : PkgSpec :=
  (needsOf s).foldl (fun acc need =>
    if (matchesFor idx s.name need).length = 1 then
      { acc with sockets :=
          addSocketIfMissing acc.sockets ⟨need.1, .input, need.2⟩ }
    else if 2 ≤ (matchesFor idx s.name need).length then
      { acc with warnings := acc.warnings ++ [ambiguityWarning need] }
    else acc) s

/-- Modelled from the spec: the Input-Socket Resolver
`createInputSocketsBasedOnOutputSockets` (module
pipeline-steps/createInputSocketsAcrossAssets, not among the provided
sources). -/
def createInputSocketsBasedOnOutputSockets (specs : List PkgSpec) :
    List PkgSpec :=
  specs.map (resolveSpec (outputIndex specs))

/-- Modelled from the spec: deterministic compilation of a spec structure
into the source of its authoritative definition function; identical spec
content yields identical generated source. -/
def assetFuncCode (s : PkgSpec) : String :=
  toString (repr s.props) ++ toString (repr s.sockets)

/-- Modelled from the spec: the Asset Function Synthesizer
`generateAssetFuncs` (module pipeline-steps/generateAssetFuncs, not among
the provided sources).  Attaches to each spec the asset function compiled
from its finalized property tree and socket set. -/
def generateAssetFuncs (specs : List PkgSpec) : List PkgSpec :=
  specs.map (fun s =>
    { s with funcs :=
        addFuncIfMissing s.funcs ⟨s.name ++ " asset", .asset, assetFuncCode s⟩ })

/-- Modelled from the spec: deterministic minting of a fresh schema id
when no previously emitted spec matches. -/
def mintSchemaId (name : String) : Nat :=
  name.foldl (fun a c => a * 131 + c.toNat + 1) 17

/-- Modelled from the spec: the Identity Reconciler
`updateSchemaIdsForExistingSpecs` (module
pipeline-steps/updateSchemaIdsForExistingSpecs, not among the provided
sources).  Each new spec matched by name against a previously emitted
spec inherits that spec schema id; on no match a new id is minted.  The
fuzzy rename fallback and the preservation of previously persisted
user-authored functions are not modelled; no claim depends on them. -/
def updateSchemaIdsForExistingSpecs (existing : List PkgSpec)
    (specs : List PkgSpec) : List PkgSpec :=
  specs.map (fun s =>
    match existing.find? (fun e => decide (e.name = s.name)) with
    | some e => { s with schemaId := e.schemaId }
    | none => { s with schemaId := some (mintSchemaId s.name) })

/-- The spec-building loop of `generateSiSpecs` (part_001 lines 115 to
123): each raw schema is translated; a success is pushed onto the spec
list, a failure is recorded with the schema type name and skipped,
never aborting the batch.  Returns the built specs and the recorded
per-schema failures. -/
def buildSpecs (db : List RawSchema) :
    List PkgSpec × List (String × TranslationError) :=
  db.foldl (fun acc cf =>
    match pkgSpecFromCf cf with
    | .ok pkg => (acc.1 ++ [pkg], acc.2)
    | .error e => (acc.1, acc.2 ++ [(cf.typeName, e)])) ([], [])

/-- The pipeline stage sequence of `generateSiSpecs` (part_001 lines 125
to 137), in exactly the source order, ending with identity
reconciliation against the previously emitted specs. -/
def runPipelineStages (existingSpecs : List PkgSpec)
    (specs0 : List PkgSpec) : List PkgSpec :=
  let s1 := generateOutputSocketsFromResourceProps specs0
  let s2 := addDefaultPropsAndSockets s1
  let s3 := generateDefaultActionFuncs s2
  let s4 := generateDefaultLeafFuncs s3
  let s5 := generateDefaultManagementFuncs s4
  let s6 := generateSubAssets s5
  let s7 := generateIntrinsicFuncs s6
  let s8 := createInputSocketsBasedOnOutputSockets s7
  let s9 := generateAssetFuncs s8
  updateSchemaIdsForExistingSpecs existingSpecs s9

/-- The flat output directory: file name to file content. -/
abbrev FileSystem : Type := List (String × String)

/-- Modelled from the spec: `emptyDirectory` (module util, not among the
provided sources) removes every file from the output directory. -/
def emptyDirectory (_fs : FileSystem) : FileSystem := []

/-- Write or overwrite one file in the directory. -/
def writeFile (fs : FileSystem) (fname content : String) : FileSystem :=
  fs.filter (fun f => decide (f.1 ≠ fname)) ++ [(fname, content)]

/-- Deterministic serialization of one finalized spec, standing for the
pretty-printed JSON document `JSON.stringify(spec, null, 2)`. -/
def specJson (s : PkgSpec) : String :=
  toString (repr s)

/-- The write loop of `generateSiSpecs` (part_001 lines 141 to 157),
threaded over an explicit directory state; the oracle `w` tells whether
writing the artifact of a given spec name succeeds (modelling
`Deno.writeTextFile` failures).  A failing write records the spec name
and continues without counting it; a successful write counts toward
`imported`. -/
def writeSpecsFrom (w : String → Bool) (dir0 : FileSystem)
    (specs : List PkgSpec) : FileSystem × Nat × List String :=
  specs.foldl (fun acc spec =>
    if w spec.name then
      (writeFile acc.1 (spec.name ++ ".json") (specJson spec),
       acc.2.1 + 1, acc.2.2)
    else (acc.1, acc.2.1, acc.2.2 ++ [spec.name])) (dir0, 0, [])

/-- The observable outcome of one `generateSiSpecs` run: the finalized
specs in order, the output directory contents, the count of specs
successfully emitted, the count of raw schemas attempted, and the
per-schema and per-spec failures. -/
structure RunResult where
  specs : List PkgSpec
  files : FileSystem
  imported : Nat
  attempted : Nat
  buildErrors : List (String × TranslationError)
  writeErrors : List String

/-- `generateSiSpecs` (part_001 lines 106 to 160): load inputs, build a
draft spec per raw schema skipping and counting failures, run the
pipeline stages in source order ending with identity reconciliation,
empty the output directory, then write one artifact per finalized spec
skipping and counting per-spec write failures, and report the number of
specs emitted out of the number of schemas attempted. -/
def generateSiSpecs (db : List RawSchema) (existingSpecs : List PkgSpec)
    (fs : FileSystem) (w : String → Bool) : RunResult :=
  let built := buildSpecs db
  let specs := runPipelineStages existingSpecs built.1
  let dir0 := emptyDirectory fs
  let written := writeSpecsFrom w dir0 specs
  { specs := specs, files := written.1, imported := written.2.1,
    attempted := db.length, buildErrors := built.2,
    writeErrors := written.2.2 }

/-- Modelled from the spec: `getServiceByName` (module cfDb, not among
the provided sources) looks one raw schema up by service name. -/
def getServiceByName (db : List RawSchema) (serviceName : String) :
    Option RawSchema :=
  db.find? (fun cf => decide (cf.typeName = serviceName))

/-- `generateSiSpecForService` (part_001 lines 101 to 104): return the
Spec Builder draft for the named service, with no pipeline stage
applied. -/
def generateSiSpecForService (db : List RawSchema) (serviceName : String) :
    Option (Except TranslationError PkgSpec) :=
  (getServiceByName db serviceName).map pkgSpecFromCf

/-- A raw field with default flags. -/
def fieldOf (n : String) (sh : CfShape) : String × CfFlags × CfShape :=
  (n, {}, sh)

/-- A raw field flagged read-only. -/
def roFieldOf (n : String) (sh : CfShape) : String × CfFlags × CfShape :=
  (n, ⟨false, true, false⟩, sh)

/-- The nested redrive-policy shape of the concrete scenario in the
specification, used as a concrete test input. -/
def redrivePolicyShape : CfShape :=
  .object [fieldOf "deadLetterTargetArn" .string,
           fieldOf "maxReceiveCount" .number]

/-- Concrete raw schema: a queue with a read-only arn and a nested
redrive policy. -/
def sampleQueue : RawSchema :=
  { typeName := "Example::Queue::Resource", defs := [],
    props := [roFieldOf "QueueArn" .string,
              fieldOf "RedrivePolicy" redrivePolicyShape] }

/-- Concrete raw schema: a topic carrying the same nested redrive-policy
shape as the queue, for the dedup scenario. -/
def sampleTopic : RawSchema :=
  { typeName := "Example::Topic::Resource", defs := [],
    props := [roFieldOf "TopicArn" .string,
              fieldOf "RedrivePolicy" redrivePolicyShape] }

/-- Concrete raw schema whose translation fails on an unrecognized
shape. -/
def badSchema : RawSchema :=
  { typeName := "Example::Bad::Resource", defs := [],
    props := [fieldOf "Mystery" .unknown] }

/-- Concrete prior-state input: a previously emitted spec for the queue
type carrying schema id 77. -/
def priorQueueSpec : PkgSpec :=
  { name := "Example::Queue::Resource", schemaId := some 77, props := [],
    sockets := [], funcs := [], parent := none, warnings := [] }

/-- Whether some element of the list carries the given key. -/
def keyPresent {α β : Type} [DecidableEq β] (key : α → β)
    (l : List α) (b : β) : Bool :=
  l.any (fun y => decide (key y = b))

/-- All function names the generator stages before the Intrinsic Attacher
can introduce. -/
def menuFuncNames : List String :=
  actionFuncNames ++ leafFuncNames ++ managementFuncNames

/-- Concrete spec exporting an output socket Arn, for the ambiguity
scenario. -/
def outSpecA : PkgSpec :=
  { name := "A", schemaId := none, props := [],
    sockets := [⟨"Arn", .output, .string⟩], funcs := [], parent := none,
    warnings := [] }

/-- Second concrete spec exporting the same output socket Arn. -/
def outSpecB : PkgSpec :=
  { name := "B", schemaId := none, props := [],
    sockets := [⟨"Arn", .output, .string⟩], funcs := [], parent := none,
    warnings := [] }

/-- Concrete spec whose top-level scalar property Arn implies a need
matched by both outSpecA and outSpecB. -/
def inSpecC : PkgSpec :=
  { name := "C", schemaId := none,
    props := [⟨["Arn"], .string, false, false, false⟩], sockets := [],
    funcs := [], parent := none, warnings := [] }

/-- Concrete parent spec holding a promotable nested object shape. -/
def parentSpecA : PkgSpec :=
  { name := "P1", schemaId := none,
    props := [⟨["Redrive"], .object, false, false, false⟩,
              ⟨["Redrive", "arn"], .string, false, false, false⟩,
              ⟨["Redrive", "count"], .number, false, false, false⟩],
    sockets := [], funcs := [], parent := none, warnings := [] }

/-- Second concrete parent spec holding a structurally identical nested
object shape under a different property name. -/
def parentSpecB : PkgSpec :=
  { name := "P2", schemaId := none,
    props := [⟨["Policy"], .object, false, false, false⟩,
              ⟨["Policy", "arn"], .string, false, false, false⟩,
              ⟨["Policy", "count"], .number, false, false, false⟩],
    sockets := [], funcs := [], parent := none, warnings := [] }


theorem addPropIfMissing_eq :
    addPropIfMissing = addIfMissingBy PropEntry.path := rfl

theorem addSocketIfMissing_eq :
    addSocketIfMissing = addIfMissingBy socketKey := rfl

theorem addFuncIfMissing_eq :
    addFuncIfMissing = addIfMissingBy FuncSpec.name := rfl

theorem keyPresent_append {α β : Type} [DecidableEq β] (key : α → β)
    (l1 l2 : List α) (b : β) :
    keyPresent key (l1 ++ l2) b = (keyPresent key l1 b || keyPresent key l2 b) := by
  simp [keyPresent, List.any_append]

theorem addIfMissingBy_of_present {α β : Type} [DecidableEq β]
    (key : α → β) (l : List α) (x : α)
    (h : keyPresent key l (key x) = true) :
    addIfMissingBy key l x = l := by
  simp [addIfMissingBy, keyPresent] at *
  simp [h]


theorem addIfMissingBy_eq_ite {α β : Type} [DecidableEq β]
    (key : α → β) (l : List α) (x : α) :
    addIfMissingBy key l x =
      if keyPresent key l (key x) = true then l else l ++ [x] := rfl

theorem keyPresent_addIfMissingBy_self {α β : Type} [DecidableEq β]
    (key : α → β) (l : List α) (x : α) :
    keyPresent key (addIfMissingBy key l x) (key x) = true := by
  by_cases h : keyPresent key l (key x) = true
  · simp [addIfMissingBy_eq_ite, h]
  · rw [addIfMissingBy_eq_ite, if_neg h, keyPresent_append]
    simp [keyPresent]

theorem keyPresent_addIfMissingBy_mono {α β : Type} [DecidableEq β]
    (key : α → β) (l : List α) (x : α) (b : β)
    (h : keyPresent key l b = true) :
    keyPresent key (addIfMissingBy key l x) b = true := by
  by_cases hc : keyPresent key l (key x) = true
  · simp [addIfMissingBy_eq_ite, hc, h]
  · rw [addIfMissingBy_eq_ite, if_neg hc, keyPresent_append, h]
    rfl

theorem keyPresent_addIfMissingBy_of_ne {α β : Type} [DecidableEq β]
    (key : α → β) (l : List α) (x : α) (b : β)
    (h : keyPresent key l b = false) (hne : key x ≠ b) :
    keyPresent key (addIfMissingBy key l x) b = false := by
  by_cases hc : keyPresent key l (key x) = true
  · simp [addIfMissingBy_eq_ite, hc, h]
  · rw [addIfMissingBy_eq_ite, if_neg hc, keyPresent_append, h]
    simp [keyPresent, hne]

theorem mem_addIfMissingBy {α β : Type} [DecidableEq β]
    (key : α → β) (l : List α) (x y : α) (h : y ∈ l) :
    y ∈ addIfMissingBy key l x := by
  rw [addIfMissingBy_eq_ite]
  split
  · exact h
  · exact List.mem_append_left _ h

theorem foldl_addIfMissingBy_present_mono {α β : Type} [DecidableEq β]
    (key : α → β) (xs : List α) (b : β) :
    ∀ l : List α, keyPresent key l b = true →
      keyPresent key (xs.foldl (addIfMissingBy key) l) b = true := by
  induction xs with
  | nil => intro l h; exact h
  | cons x rest ih =>
      intro l h
      exact ih _ (keyPresent_addIfMissingBy_mono key l x b h)

theorem foldl_addIfMissingBy_all_present {α β : Type} [DecidableEq β]
    (key : α → β) (xs : List α) (x : α) (hx : x ∈ xs) :
    ∀ l : List α,
      keyPresent key (xs.foldl (addIfMissingBy key) l) (key x) = true := by
  induction xs with
  | nil => cases hx
  | cons y rest ih =>
      intro l
      rcases List.mem_cons.mp hx with h | h
      · subst h
        exact foldl_addIfMissingBy_present_mono key rest _ _
          (keyPresent_addIfMissingBy_self key l x)
      · exact ih h _

theorem foldl_addIfMissingBy_of_all_present {α β : Type} [DecidableEq β]
    (key : α → β) (xs : List α) :
    ∀ l : List α, (∀ x ∈ xs, keyPresent key l (key x) = true) →
      xs.foldl (addIfMissingBy key) l = l := by
  induction xs with
  | nil => intro l _; rfl
  | cons x rest ih =>
      intro l h
      have hx := h x (List.mem_cons_self x rest)
      simp only [List.foldl_cons, addIfMissingBy_of_present key l x hx]
      exact ih l (fun y hy => h y (List.mem_cons_of_mem x hy))

theorem foldl_addIfMissingBy_idem {α β : Type} [DecidableEq β]
    (key : α → β) (xs : List α) (l : List α) :
    xs.foldl (addIfMissingBy key) (xs.foldl (addIfMissingBy key) l) =
      xs.foldl (addIfMissingBy key) l :=
  foldl_addIfMissingBy_of_all_present key xs _
    (fun x hx => foldl_addIfMissingBy_all_present key xs x hx l)

theorem mem_foldl_addIfMissingBy {α β : Type} [DecidableEq β]
    (key : α → β) (xs : List α) (y : α) :
    ∀ l : List α, y ∈ l → y ∈ xs.foldl (addIfMissingBy key) l := by
  induction xs with
  | nil => intro l h; exact h
  | cons x rest ih =>
      intro l h
      exact ih _ (mem_addIfMissingBy key l x y h)

theorem mem_foldl_addIfMissingBy_self {α β : Type} [DecidableEq β]
    (key : α → β) (xs : List α) (x : α) (hx : x ∈ xs)
    (hnodup : (xs.map key).Nodup) :
    ∀ l : List α, (∀ z ∈ xs, keyPresent key l (key z) = false) →
      x ∈ xs.foldl (addIfMissingBy key) l := by
  induction xs with
  | nil => cases hx
  | cons y rest ih =>
      intro l hnew
      have hy : keyPresent key l (key y) = false :=
        hnew y (List.mem_cons_self y rest)
      have hstep : addIfMissingBy key l y = l ++ [y] := by
        rw [addIfMissingBy_eq_ite, if_neg]
        simp [hy]
      have hnodup' : key y ∉ rest.map key ∧ (rest.map key).Nodup := by
        rw [List.map_cons, List.nodup_cons] at hnodup
        exact hnodup
      rcases List.mem_cons.mp hx with h | h
      · subst h
        refine mem_foldl_addIfMissingBy key rest x _ ?_
        rw [hstep]
        exact List.mem_append_right _ (List.mem_singleton.mpr rfl)
      · refine ih h hnodup'.2 _ ?_
        intro z hz
        have hzl : keyPresent key l (key z) = false :=
          hnew z (List.mem_cons_of_mem y hz)
        have hne : key y ≠ key z := by
          intro hcontra
          exact hnodup'.1 (hcontra ▸ List.mem_map_of_mem key hz)
        rw [hstep, keyPresent_append, hzl]
        simp [keyPresent, hne]

theorem augmentSpec_idem (s : PkgSpec) :
    augmentSpec (augmentSpec s) = augmentSpec s := by
  simp [augmentSpec, addPropIfMissing_eq, addSocketIfMissing_eq,
    foldl_addIfMissingBy_idem]

theorem addFuncs_idem (k : FuncKind) (names : List String) (s : PkgSpec) :
    addFuncs k names (addFuncs k names s) = addFuncs k names s := by
  simp [addFuncs, addFuncIfMissing_eq, foldl_addIfMissingBy_idem]

/-- Claim C6: applying the Default Augmenter or the Intrinsic Attacher
twice to the same spec collection yields the same result as applying it
once; the second application introduces no duplicate name-keyed
entries. -/
theorem augmentation_idempotent (specs : List PkgSpec) :
    addDefaultPropsAndSockets (addDefaultPropsAndSockets specs) =
      addDefaultPropsAndSockets specs ∧
    generateIntrinsicFuncs (generateIntrinsicFuncs specs) =
      generateIntrinsicFuncs specs := by
  constructor
  · simp only [addDefaultPropsAndSockets, List.map_map]
    exact List.map_congr_left (fun s _ => augmentSpec_idem s)
  · simp only [generateIntrinsicFuncs, List.map_map]
    exact List.map_congr_left (fun s _ => addFuncs_idem _ _ s)

/-- Claim C3: the emitted documents are a deterministic function of the
raw-schema input and the prior-state input; two runs on equal inputs
produce equal serialized artifacts, whatever the initial directory
contents, and equal directory contents when the write environment
behaves the same. -/
theorem generateSiSpecs_deterministic (db1 db2 : List RawSchema)
    (ex1 ex2 : List PkgSpec) (fs1 fs2 : FileSystem) (w : String → Bool)
    (w2 : String → Bool) (hdb : db1 = db2) (hex : ex1 = ex2) :
    (generateSiSpecs db1 ex1 fs1 w).specs.map specJson =
      (generateSiSpecs db2 ex2 fs2 w2).specs.map specJson ∧
    (generateSiSpecs db1 ex1 fs1 w).files =
      (generateSiSpecs db2 ex2 fs2 w).files := by
  subst hdb
  subst hex
  exact ⟨rfl, rfl⟩

theorem generateSiSpecs_deterministic_witness :
    (generateSiSpecs [sampleQueue] [priorQueueSpec] [("stale.json", "x")]
        (fun _ => true)).specs.map specJson =
      (generateSiSpecs [sampleQueue] [priorQueueSpec] []
        (fun _ => false)).specs.map specJson ∧
    (generateSiSpecs [sampleQueue] [priorQueueSpec] [("stale.json", "x")]
        (fun _ => true)).files =
      (generateSiSpecs [sampleQueue] [priorQueueSpec] []
        (fun _ => true)).files :=
  generateSiSpecs_deterministic [sampleQueue] [sampleQueue] [priorQueueSpec]
    [priorQueueSpec] [("stale.json", "x")] [] (fun _ => true) (fun _ => false)
    rfl rfl

theorem buildSpecs_foldl (db : List RawSchema)
    (acc : List PkgSpec × List (String × TranslationError)) :
    db.foldl (fun acc cf =>
      match pkgSpecFromCf cf with
      | .ok pkg => (acc.1 ++ [pkg], acc.2)
      | .error e => (acc.1, acc.2 ++ [(cf.typeName, e)])) acc =
    (acc.1 ++ db.filterMap (fun cf => (pkgSpecFromCf cf).toOption),
     acc.2 ++ db.filterMap (fun cf =>
       match pkgSpecFromCf cf with
       | .ok _ => none
       | .error e => some (cf.typeName, e))) := by
  induction db generalizing acc with
  | nil => simp
  | cons cf rest ih =>
      simp only [List.foldl_cons, List.filterMap_cons]
      cases hcf : pkgSpecFromCf cf with
      | ok pkg => simp [hcf, ih, Except.toOption]
      | error e => simp [hcf, ih, Except.toOption]

theorem buildSpecs_eq (db : List RawSchema) :
    buildSpecs db =
      (db.filterMap (fun cf => (pkgSpecFromCf cf).toOption),
       db.filterMap (fun cf =>
         match pkgSpecFromCf cf with
         | .ok _ => none
         | .error e => some (cf.typeName, e))) := by
  rw [buildSpecs, buildSpecs_foldl]
  simp

theorem build_partition_length (db : List RawSchema) :
    (db.filterMap (fun cf => (pkgSpecFromCf cf).toOption)).length +
    (db.filterMap (fun cf =>
      match pkgSpecFromCf cf with
      | .ok _ => none
      | .error e => some (cf.typeName, e))).length = db.length := by
  induction db with
  | nil => rfl
  | cons cf rest ih =>
      cases hcf : pkgSpecFromCf cf with
      | ok pkg =>
          have ht : (pkgSpecFromCf cf).toOption = some pkg := by
            rw [hcf]; rfl
          have ht2 : (match pkgSpecFromCf cf with
              | .ok _ => none
              | .error e => some (cf.typeName, e)) =
              (none : Option (String × TranslationError)) := by
            rw [hcf]
          rw [List.filterMap_cons, List.filterMap_cons, ht, ht2]
          simp only [List.length_cons]
          omega
      | error e =>
          have ht : (pkgSpecFromCf cf).toOption =
              (none : Option PkgSpec) := by
            rw [hcf]; rfl
          have ht2 : (match pkgSpecFromCf cf with
              | .ok _ => none
              | .error e => some (cf.typeName, e)) =
              some (cf.typeName, e) := by
            rw [hcf]
          rw [List.filterMap_cons, List.filterMap_cons, ht, ht2]
          simp only [List.length_cons]
          omega

/-- Claim C4: a raw schema whose translation fails is skipped and its
failure counted, while every schema whose translation succeeds is built
and the whole pipeline still runs over the built collection; one failing
schema never aborts the batch. -/
theorem translation_failure_isolated (db : List RawSchema)
    (ex : List PkgSpec) (fs : FileSystem) (w : String → Bool) :
    (buildSpecs db).1 =
      db.filterMap (fun cf => (pkgSpecFromCf cf).toOption) ∧
    (generateSiSpecs db ex fs w).buildErrors =
      db.filterMap (fun cf =>
        match pkgSpecFromCf cf with
        | .ok _ => none
        | .error e => some (cf.typeName, e)) ∧
    (buildSpecs db).1.length +
      (generateSiSpecs db ex fs w).buildErrors.length = db.length ∧
    (generateSiSpecs db ex fs w).specs =
      runPipelineStages ex (buildSpecs db).1 := by
  refine ⟨?_, ?_, ?_, rfl⟩
  · rw [buildSpecs_eq]
  · show (buildSpecs db).2 = _
    rw [buildSpecs_eq]
  · rw [buildSpecs_eq]
    show _ + (buildSpecs db).2.length = _
    rw [buildSpecs_eq]
    exact build_partition_length db

theorem writeSpecsFrom_general (w : String → Bool) (specs : List PkgSpec)
    (acc : FileSystem × Nat × List String) :
    specs.foldl (fun acc spec =>
      if w spec.name then
        (writeFile acc.1 (spec.name ++ ".json") (specJson spec),
         acc.2.1 + 1, acc.2.2)
      else (acc.1, acc.2.1, acc.2.2 ++ [spec.name])) acc =
    ((specs.filter (fun s => w s.name)).foldl
        (fun d spec => writeFile d (spec.name ++ ".json") (specJson spec))
        acc.1,
     acc.2.1 + (specs.filter (fun s => w s.name)).length,
     acc.2.2 ++ (specs.filter (fun s => !(w s.name))).map PkgSpec.name) := by
  induction specs generalizing acc with
  | nil => simp
  | cons spec rest ih =>
      by_cases hw : w spec.name
      · simp only [List.foldl_cons, List.filter_cons, hw, if_pos, ih,
          Bool.not_true, List.length_cons]
        simp [hw]
        omega
      · have hw' : w spec.name = false := by
          exact Bool.not_eq_true _ |>.mp hw
        simp only [List.foldl_cons, List.filter_cons, hw', ih,
          Bool.not_false]
        simp [hw', List.append_assoc]

theorem writeSpecsFrom_eq (w : String → Bool) (dir0 : FileSystem)
    (specs : List PkgSpec) :
    writeSpecsFrom w dir0 specs =
      ((specs.filter (fun s => w s.name)).foldl
          (fun d spec => writeFile d (spec.name ++ ".json") (specJson spec))
          dir0,
       (specs.filter (fun s => w s.name)).length,
       (specs.filter (fun s => !(w s.name))).map PkgSpec.name) := by
  rw [writeSpecsFrom, writeSpecsFrom_general]
  simp

theorem specs_filter_partition_length (w : String → Bool)
    (l : List PkgSpec) :
    (l.filter (fun s => w s.name)).length +
      (l.filter (fun s => !(w s.name))).length = l.length := by
  induction l with
  | nil => rfl
  | cons s rest ih =>
      by_cases hw : w s.name
      · simp [List.filter_cons, hw]
        omega
      · have hw' : w s.name = false := Bool.not_eq_true _ |>.mp hw
        simp [List.filter_cons, hw']
        omega

/-- Claim C5: a spec whose artifact write fails is recorded and not
counted as emitted, the remaining specs are still written, and the run
reports the count of specs successfully emitted together with the count
of raw schemas attempted and the per-schema and per-spec failure
lists. -/
theorem emission_failure_isolated (db : List RawSchema)
    (ex : List PkgSpec) (fs : FileSystem) (w : String → Bool) :
    (generateSiSpecs db ex fs w).imported =
      ((generateSiSpecs db ex fs w).specs.filter
        (fun s => w s.name)).length ∧
    (generateSiSpecs db ex fs w).writeErrors =
      ((generateSiSpecs db ex fs w).specs.filter
        (fun s => !(w s.name))).map PkgSpec.name ∧
    (generateSiSpecs db ex fs w).imported +
      (generateSiSpecs db ex fs w).writeErrors.length =
      (generateSiSpecs db ex fs w).specs.length ∧
    (generateSiSpecs db ex fs w).attempted = db.length := by
  have hspecs : (generateSiSpecs db ex fs w).specs =
      runPipelineStages ex (buildSpecs db).1 := rfl
  have him : (generateSiSpecs db ex fs w).imported =
      ((runPipelineStages ex (buildSpecs db).1).filter
        (fun s => w s.name)).length := by
    show (writeSpecsFrom w (emptyDirectory fs)
        (runPipelineStages ex (buildSpecs db).1)).2.1 = _
    rw [writeSpecsFrom_eq]
  have herr : (generateSiSpecs db ex fs w).writeErrors =
      ((runPipelineStages ex (buildSpecs db).1).filter
        (fun s => !(w s.name))).map PkgSpec.name := by
    show (writeSpecsFrom w (emptyDirectory fs)
        (runPipelineStages ex (buildSpecs db).1)).2.2 = _
    rw [writeSpecsFrom_eq]
  refine ⟨?_, ?_, ?_, rfl⟩
  · rw [him, hspecs]
  · rw [herr, hspecs]
  · rw [him, herr, hspecs, List.length_map]
    exact specs_filter_partition_length w
      (runPipelineStages ex (buildSpecs db).1)

theorem mem_writeFile_iff (fs : FileSystem) (fname content : String)
    (f : String × String) :
    f ∈ writeFile fs fname content ↔
      ((f ∈ fs ∧ f.1 ≠ fname) ∨ f = (fname, content)) := by
  constructor
  · intro h
    rcases List.mem_append.mp h with h1 | h2
    · have := List.mem_filter.mp h1
      refine Or.inl ⟨this.1, ?_⟩
      simpa using this.2
    · exact Or.inr (List.mem_singleton.mp h2)
  · intro h
    rcases h with ⟨hin, hne⟩ | heq
    · exact List.mem_append_left _
        (List.mem_filter.mpr ⟨hin, by exact decide_eq_true hne⟩)
    · exact List.mem_append_right _ (List.mem_singleton.mpr heq)

theorem self_mem_writeFile (fs : FileSystem) (fname content : String) :
    (fname, content) ∈ writeFile fs fname content :=
  (mem_writeFile_iff fs fname content _).mpr (Or.inr rfl)

theorem exists_name_mem_writeFile (fs : FileSystem)
    (fname content n : String) (h : ∃ c, (n, c) ∈ fs) :
    ∃ c, (n, c) ∈ writeFile fs fname content := by
  obtain ⟨c, hc⟩ := h
  by_cases hn : n = fname
  · subst hn
    exact ⟨content, self_mem_writeFile fs n content⟩
  · exact ⟨c, (mem_writeFile_iff fs fname content _).mpr
      (Or.inl ⟨hc, hn⟩)⟩

theorem mem_dirFold (specs' : List PkgSpec) :
    ∀ (d0 : FileSystem) (f : String × String),
      f ∈ specs'.foldl
        (fun d spec => writeFile d (spec.name ++ ".json") (specJson spec))
        d0 →
      f ∈ d0 ∨ ∃ spec ∈ specs', f = (spec.name ++ ".json", specJson spec) := by
  induction specs' with
  | nil => intro d0 f h; exact Or.inl h
  | cons spec rest ih =>
      intro d0 f h
      rcases ih _ f h with hd | ⟨sp, hsp, hf⟩
      · rcases (mem_writeFile_iff _ _ _ _).mp hd with ⟨hin, _⟩ | heq
        · exact Or.inl hin
        · exact Or.inr ⟨spec, List.mem_cons_self spec rest, heq⟩
      · exact Or.inr ⟨sp, List.mem_cons_of_mem _ hsp, hf⟩

theorem dirFold_preserves (specs' : List PkgSpec) :
    ∀ (d0 : FileSystem) (n : String), (∃ c, (n, c) ∈ d0) →
      ∃ c, (n, c) ∈ specs'.foldl
        (fun d spec => writeFile d (spec.name ++ ".json") (specJson spec))
        d0 := by
  induction specs' with
  | nil => intro d0 n h; exact h
  | cons spec rest ih =>
      intro d0 n h
      exact ih _ n (exists_name_mem_writeFile _ _ _ n h)

theorem dirFold_covers (specs' : List PkgSpec) :
    ∀ (d0 : FileSystem) (spec : PkgSpec), spec ∈ specs' →
      ∃ c, (spec.name ++ ".json", c) ∈ specs'.foldl
        (fun d spec => writeFile d (spec.name ++ ".json") (specJson spec))
        d0 := by
  induction specs' with
  | nil => intro _ _ h; cases h
  | cons sp rest ih =>
      intro d0 spec hmem
      rcases List.mem_cons.mp hmem with h | h
      · subst h
        exact dirFold_preserves rest _ _
          ⟨specJson spec, self_mem_writeFile d0 _ _⟩
      · exact ih _ spec h

/-- Claim C9: the output directory is emptied before any artifact is
written; afterwards it holds exactly the artifacts of the finalized
specs whose write succeeded — every file comes from a successfully
written spec of this run (so nothing from any earlier run survives, and
the initial directory contents are irrelevant), and every successfully
written spec has its artifact present. -/
theorem output_directory_holds_exactly_current_run (db : List RawSchema)
    (ex : List PkgSpec) (fs : FileSystem) (w : String → Bool) :
    (generateSiSpecs db ex fs w).files =
      (generateSiSpecs db ex [] w).files ∧
    (∀ f ∈ (generateSiSpecs db ex fs w).files,
      ∃ spec ∈ (generateSiSpecs db ex fs w).specs,
        w spec.name = true ∧ f = (spec.name ++ ".json", specJson spec)) ∧
    (∀ spec ∈ (generateSiSpecs db ex fs w).specs, w spec.name = true →
      ∃ c, (spec.name ++ ".json", c) ∈ (generateSiSpecs db ex fs w).files) := by
  have hfiles : (generateSiSpecs db ex fs w).files =
      ((runPipelineStages ex (buildSpecs db).1).filter
        (fun s => w s.name)).foldl
        (fun d spec => writeFile d (spec.name ++ ".json") (specJson spec))
        [] := by
    show (writeSpecsFrom w (emptyDirectory fs)
        (runPipelineStages ex (buildSpecs db).1)).1 = _
    rw [writeSpecsFrom_eq]
    rfl
  refine ⟨rfl, ?_, ?_⟩
  · intro f hf
    rw [hfiles] at hf
    rcases mem_dirFold _ _ f hf with h0 | ⟨sp, hsp, hval⟩
    · exact absurd h0 (List.not_mem_nil f)
    · have hm := List.mem_filter.mp hsp
      exact ⟨sp, hm.1, by simpa using hm.2, hval⟩
  · intro spec hspec hw
    have hspec' : spec ∈ runPipelineStages ex (buildSpecs db).1 := hspec
    rw [hfiles]
    exact dirFold_covers _ _ spec
      (List.mem_filter.mpr ⟨hspec', by simpa using hw⟩)

theorem output_directory_holds_exactly_current_run_witness :
    ∃ c, ("Example::Queue::Resource" ++ ".json", c) ∈
      (generateSiSpecs [sampleQueue] [priorQueueSpec]
        [("stale.json", "x")] (fun _ => true)).files := by
  obtain ⟨spec, hmem, hname⟩ :
      ∃ spec ∈ (generateSiSpecs [sampleQueue] [priorQueueSpec]
          [("stale.json", "x")] (fun _ => true)).specs,
        spec.name = "Example::Queue::Resource" := by decide
  have h := (output_directory_holds_exactly_current_run [sampleQueue]
    [priorQueueSpec] [("stale.json", "x")] (fun _ => true)).2.2 spec hmem rfl
  rw [hname] at h
  exact h

theorem pkgSpecFromCf_ok_shape (cf : RawSchema) (spec : PkgSpec)
    (h : pkgSpecFromCf cf = .ok spec) :
    spec.name = cf.typeName ∧ spec.schemaId = none ∧ spec.sockets = [] ∧
    spec.funcs = [] ∧ spec.parent = none ∧ spec.warnings = [] := by
  unfold pkgSpecFromCf at h
  cases ht : translateFields cf.defs maxTranslationDepth [] cf.props with
  | ok entries =>
      rw [ht] at h
      have hs := Except.ok.inj h
      subst hs
      exact ⟨rfl, rfl, rfl, rfl, rfl, rfl⟩
  | error e =>
      rw [ht] at h
      cases h

theorem translate_no_refTo (defs : List (String × CfShape)) :
    ∀ fuel : Nat,
      (∀ (path : List String) (fl : CfFlags) (shape : CfShape)
          (entries : List PropEntry),
        translateShape defs fuel path fl shape = .ok entries →
        ∀ e ∈ entries, ∀ n, e.kind ≠ PropKind.refTo n) ∧
      (∀ (path : List String) (fields : List (String × CfFlags × CfShape))
          (entries : List PropEntry),
        translateFields defs fuel path fields = .ok entries →
        ∀ e ∈ entries, ∀ n, e.kind ≠ PropKind.refTo n) := by
  intro fuel
  induction fuel with
  | zero =>
      constructor
      · intro path fl shape entries h
        simp [translateShape] at h
      · intro path fields entries h
        cases fields with
        | nil =>
            simp [translateFields] at h
            subst h
            intro e he
            cases he
        | cons f rest =>
            simp [translateFields] at h
  | succ fuel ih =>
      constructor
      · intro path fl shape entries h e he n
        cases shape with
        | string =>
            simp [translateShape] at h
            subst h
            rcases List.mem_singleton.mp he with rfl
            simp
        | number =>
            simp [translateShape] at h
            subst h
            rcases List.mem_singleton.mp he with rfl
            simp
        | boolean =>
            simp [translateShape] at h
            subst h
            rcases List.mem_singleton.mp he with rfl
            simp
        | object fields =>
            simp only [translateShape] at h
            cases ht : translateFields defs fuel (path) fields with
            | ok children =>
                rw [ht] at h
                have hent := Except.ok.inj h
                subst hent
                rcases List.mem_cons.mp he with rfl | hmem
                · simp
                · exact ih.2 path fields children ht e hmem n
            | error er =>
                rw [ht] at h
                cases h
        | array elem =>
            simp only [translateShape] at h
            cases ht : translateShape defs fuel (path ++ ["*"]) {} elem with
            | ok sub =>
                rw [ht] at h
                have hent := Except.ok.inj h
                subst hent
                rcases List.mem_cons.mp he with rfl | hmem
                · simp
                · exact ih.1 (path ++ ["*"]) {} elem sub ht e hmem n
            | error er =>
                rw [ht] at h
                cases h
        | map value =>
            simp only [translateShape] at h
            cases ht : translateShape defs fuel (path ++ ["#"]) {} value with
            | ok sub =>
                rw [ht] at h
                have hent := Except.ok.inj h
                subst hent
                rcases List.mem_cons.mp he with rfl | hmem
                · simp
                · exact ih.1 (path ++ ["#"]) {} value sub ht e hmem n
            | error er =>
                rw [ht] at h
                cases h
        | ref dn =>
            simp only [translateShape] at h
            cases hd : defs.find? (fun d => decide (d.1 = dn)) with
            | some d =>
                rw [hd] at h
                exact ih.1 path fl d.2 entries h e he n
            | none =>
                rw [hd] at h
                cases h
        | unknown =>
            simp [translateShape] at h
      · intro path fields entries h e he n
        cases fields with
        | nil =>
            simp [translateFields] at h
            subst h
            cases he
        | cons f rest =>
            simp only [translateFields] at h
            cases ht : translateShape defs fuel (path ++ [f.1]) f.2.1 f.2.2 with
            | ok sub =>
                rw [ht] at h
                cases ht2 : translateFields defs fuel path rest with
                | ok more =>
                    rw [ht2] at h
                    have hent := Except.ok.inj h
                    subst hent
                    rcases List.mem_append.mp he with hmem | hmem
                    · exact ih.1 (path ++ [f.1]) f.2.1 f.2.2 sub ht e hmem n
                    · exact ih.2 path rest more ht2 e hmem n
                | error er =>
                    rw [ht2] at h
                    cases h
            | error er =>
                rw [ht] at h
                cases h

/-- Claim C10: for a service whose schema translates successfully,
generateSiSpecForService returns exactly the Spec Builder draft with no
later pipeline stage applied — no sockets, no functions of any kind, no
extracted sub-asset references in the property tree, no parent lineage
and no reconciled schema id. -/
theorem generateSiSpecForService_returns_draft (db : List RawSchema)
    (serviceName : String) (cf : RawSchema) (spec : PkgSpec)
    (hcf : getServiceByName db serviceName = some cf)
    (hok : pkgSpecFromCf cf = .ok spec) :
    generateSiSpecForService db serviceName = some (Except.ok spec) ∧
    spec.sockets = [] ∧ spec.funcs = [] ∧ spec.schemaId = none ∧
    spec.parent = none ∧
    (∀ e ∈ spec.props, ∀ n, e.kind ≠ PropKind.refTo n) := by
  have hshape := pkgSpecFromCf_ok_shape cf spec hok
  refine ⟨?_, hshape.2.2.1, hshape.2.2.2.1, hshape.2.1,
    hshape.2.2.2.2.1, ?_⟩
  · rw [generateSiSpecForService, hcf, Option.map_some', hok]
  · intro e he n
    unfold pkgSpecFromCf at hok
    cases ht : translateFields cf.defs maxTranslationDepth [] cf.props with
    | ok entries =>
        rw [ht] at hok
        have hs := Except.ok.inj hok
        have hprops : spec.props = entries := by rw [← hs]
        exact (translate_no_refTo cf.defs maxTranslationDepth).2
          [] cf.props entries ht e (hprops ▸ he) n
    | error er =>
        rw [ht] at hok
        cases hok

theorem generateSiSpecForService_returns_draft_witness :
    ∃ spec : PkgSpec, pkgSpecFromCf sampleQueue = Except.ok spec ∧
      (generateSiSpecForService [sampleQueue] "Example::Queue::Resource" =
          some (Except.ok spec) ∧
        spec.sockets = [] ∧ spec.funcs = [] ∧ spec.schemaId = none ∧
        spec.parent = none ∧
        (∀ e ∈ spec.props, ∀ n, e.kind ≠ PropKind.refTo n)) := by
  cases h : pkgSpecFromCf sampleQueue with
  | ok spec =>
      exact ⟨spec, rfl, generateSiSpecForService_returns_draft [sampleQueue]
        "Example::Queue::Resource" sampleQueue spec (by rfl) h⟩
  | error e =>
      have hok : (pkgSpecFromCf sampleQueue).isOk = true := by decide
      rw [h] at hok
      simp [Except.isOk, Except.toBool] at hok

theorem foldl_proj {α σ τ : Type} (g : α → σ) (step : α → τ → α)
    (hstep : ∀ acc e, g (step acc e) = g acc) (l : List τ) :
    ∀ acc : α, g (l.foldl step acc) = g acc := by
  induction l with
  | nil => intro acc; rfl
  | cons x rest ih =>
      intro acc
      rw [List.foldl_cons, ih, hstep]

theorem deriveOutputSockets_name (s : PkgSpec) :
    (deriveOutputSockets s).name = s.name := by
  unfold deriveOutputSockets
  apply foldl_proj PkgSpec.name _ ?_ s.props s
  intro acc e
  dsimp only
  split
  · split <;> rfl
  · rfl

theorem deriveOutputSockets_funcs (s : PkgSpec) :
    (deriveOutputSockets s).funcs = s.funcs := by
  unfold deriveOutputSockets
  apply foldl_proj PkgSpec.funcs _ ?_ s.props s
  intro acc e
  dsimp only
  split
  · split <;> rfl
  · rfl

theorem resolveSpec_name (idx : List OutEntry) (s : PkgSpec) :
    (resolveSpec idx s).name = s.name := by
  unfold resolveSpec
  apply foldl_proj PkgSpec.name _ ?_ (needsOf s) s
  intro acc need
  dsimp only
  split
  · rfl
  · split <;> rfl

theorem exists_name_in_map (f : PkgSpec → PkgSpec)
    (hf : ∀ s : PkgSpec, (f s).name = s.name) (specs : List PkgSpec)
    (n : String) (h : ∃ s ∈ specs, s.name = n) :
    ∃ s ∈ specs.map f, s.name = n := by
  obtain ⟨s, hs, hn⟩ := h
  exact ⟨f s, List.mem_map_of_mem f hs, by rw [hf s, hn]⟩

theorem exists_name_in_generateSubAssets (specs : List PkgSpec)
    (n : String) (h : ∃ s ∈ specs, s.name = n) :
    ∃ s ∈ generateSubAssets specs, s.name = n := by
  obtain ⟨s, hs, hn⟩ := h
  exact ⟨rewriteSpec (collectShapes specs) s,
    List.mem_append_left _ (List.mem_map_of_mem _ hs), hn⟩

theorem updateSchemaIds_image (ex : List PkgSpec) (s : PkgSpec)
    (e : PkgSpec)
    (hfind : ex.find? (fun x => decide (x.name = s.name)) = some e)
    (specs : List PkgSpec) (hs : s ∈ specs) :
    { s with schemaId := e.schemaId } ∈
      updateSchemaIdsForExistingSpecs ex specs := by
  unfold updateSchemaIdsForExistingSpecs
  refine List.mem_map.mpr ⟨s, hs, ?_⟩
  dsimp only
  rw [hfind]

/-- Claim C1: when the prior-state input holds a spec for type T with
schemaId X and the raw schema for T still translates, the full pipeline
(ending in updateSchemaIdsForExistingSpecs) emits a spec for T carrying
schemaId X rather than a newly minted id. -/
theorem schemaId_stability (db : List RawSchema) (ex : List PkgSpec)
    (fs : FileSystem) (w : String → Bool) (cf : RawSchema)
    (spec0 : PkgSpec) (e : PkgSpec) (X : Nat) (hcf : cf ∈ db)
    (hok : pkgSpecFromCf cf = .ok spec0)
    (hfind : ex.find? (fun x => decide (x.name = cf.typeName)) = some e)
    (hid : e.schemaId = some X) :
    ∃ s ∈ (generateSiSpecs db ex fs w).specs,
      s.name = cf.typeName ∧ s.schemaId = some X := by
  have hmem0 : spec0 ∈ (buildSpecs db).1 := by
    rw [buildSpecs_eq]
    exact List.mem_filterMap.mpr ⟨cf, hcf, by rw [hok]; rfl⟩
  have hname0 : spec0.name = cf.typeName :=
    (pkgSpecFromCf_ok_shape cf spec0 hok).1
  have h0 : ∃ s ∈ (buildSpecs db).1, s.name = cf.typeName :=
    ⟨spec0, hmem0, hname0⟩
  have h1 := exists_name_in_map deriveOutputSockets
    deriveOutputSockets_name _ _ h0
  have h2 := exists_name_in_map augmentSpec (fun _ => rfl) _ _ h1
  have h3 := exists_name_in_map (addFuncs .action actionFuncNames)
    (fun _ => rfl) _ _ h2
  have h4 := exists_name_in_map (addFuncs .leaf leafFuncNames)
    (fun _ => rfl) _ _ h3
  have h5 := exists_name_in_map (addFuncs .management managementFuncNames)
    (fun _ => rfl) _ _ h4
  have h6 := exists_name_in_generateSubAssets _ _ h5
  have h7 := exists_name_in_map (addFuncs .intrinsic intrinsicFuncNames)
    (fun _ => rfl) _ _ h6
  have h8 := exists_name_in_map
    (resolveSpec (outputIndex (generateIntrinsicFuncs (generateSubAssets
      (generateDefaultManagementFuncs (generateDefaultLeafFuncs
        (generateDefaultActionFuncs (addDefaultPropsAndSockets
          (generateOutputSocketsFromResourceProps (buildSpecs db).1)))))))))
    (resolveSpec_name _) _ _ h7
  have h9 := exists_name_in_map
    (fun s =>
      { s with funcs :=
          addFuncIfMissing s.funcs (FuncSpec.mk (s.name ++ " asset") FuncKind.asset (assetFuncCode s)) })
    (fun _ => rfl) _ _ h8
  obtain ⟨s9, hs9, hn9⟩ := h9
  have hfind9 : ex.find? (fun x => decide (x.name = s9.name)) = some e := by
    rw [hn9]
    exact hfind
  refine ⟨{ s9 with schemaId := e.schemaId }, ?_, hn9, hid⟩
  exact updateSchemaIds_image ex s9 e hfind9 _ hs9

theorem schemaId_stability_witness :
    ∃ s ∈ (generateSiSpecs [sampleQueue] [priorQueueSpec] []
        (fun _ => true)).specs,
      s.name = "Example::Queue::Resource" ∧ s.schemaId = some 77 := by
  cases h : pkgSpecFromCf sampleQueue with
  | ok spec0 =>
      exact schemaId_stability [sampleQueue] [priorQueueSpec] []
        (fun _ => true) sampleQueue spec0 priorQueueSpec 77
        (List.mem_singleton.mpr rfl) h (by rfl) rfl
  | error er =>
      have hok : (pkgSpecFromCf sampleQueue).isOk = true := by decide
      rw [h] at hok
      simp [Except.isOk, Except.toBool] at hok

theorem mem_addIfMissingBy_inv {α β : Type} [DecidableEq β]
    (key : α → β) (l : List α) (x y : α)
    (h : y ∈ addIfMissingBy key l x) : y ∈ l ∨ y = x := by
  rw [addIfMissingBy_eq_ite] at h
  rcases (by assumption : y ∈ if keyPresent key l (key x) = true
      then l else l ++ [x]) with h2
  by_cases hc : keyPresent key l (key x) = true
  · rw [if_pos hc] at h2
    exact Or.inl h2
  · rw [if_neg hc] at h2
    rcases List.mem_append.mp h2 with h3 | h3
    · exact Or.inl h3
    · exact Or.inr (List.mem_singleton.mp h3)

theorem resolveFold_sockets (idx : List OutEntry) (sname : String)
    (needs : List (String × SocketType)) :
    ∀ acc : PkgSpec, ∀ k ∈ (needs.foldl (fun acc need =>
        if (matchesFor idx sname need).length = 1 then
          { acc with sockets :=
              addSocketIfMissing acc.sockets ⟨need.1, .input, need.2⟩ }
        else if 2 ≤ (matchesFor idx sname need).length then
          { acc with warnings := acc.warnings ++ [ambiguityWarning need] }
        else acc) acc).sockets,
      k ∈ acc.sockets ∨ ∃ need ∈ needs,
        (matchesFor idx sname need).length = 1 ∧
        k = ⟨need.1, SocketDir.input, need.2⟩ := by
  induction needs with
  | nil => intro acc k hk; exact Or.inl hk
  | cons need rest ih =>
      intro acc k hk
      rw [List.foldl_cons] at hk
      rcases ih _ k hk with hacc | ⟨need2, hneed2, hlen2, hk2⟩
      · by_cases h1 : (matchesFor idx sname need).length = 1
        · rw [if_pos h1] at hacc
          rcases mem_addIfMissingBy_inv socketKey acc.sockets _ k hacc with
            hin | heq
          · exact Or.inl hin
          · exact Or.inr ⟨need, List.mem_cons_self need rest, h1, heq⟩
        · rw [if_neg h1] at hacc
          by_cases h2 : 2 ≤ (matchesFor idx sname need).length
          · rw [if_pos h2] at hacc
            exact Or.inl hacc
          · rw [if_neg h2] at hacc
            exact Or.inl hacc
      · exact Or.inr ⟨need2, List.mem_cons_of_mem need hneed2, hlen2, hk2⟩

theorem resolveFold_warn_mono (idx : List OutEntry) (sname : String)
    (needs : List (String × SocketType)) :
    ∀ (acc : PkgSpec) (x : String), x ∈ acc.warnings →
      x ∈ (needs.foldl (fun acc need =>
        if (matchesFor idx sname need).length = 1 then
          { acc with sockets :=
              addSocketIfMissing acc.sockets ⟨need.1, .input, need.2⟩ }
        else if 2 ≤ (matchesFor idx sname need).length then
          { acc with warnings := acc.warnings ++ [ambiguityWarning need] }
        else acc) acc).warnings := by
  induction needs with
  | nil => intro acc x hx; exact hx
  | cons need rest ih =>
      intro acc x hx
      rw [List.foldl_cons]
      apply ih
      by_cases h1 : (matchesFor idx sname need).length = 1
      · rw [if_pos h1]; exact hx
      · rw [if_neg h1]
        by_cases h2 : 2 ≤ (matchesFor idx sname need).length
        · rw [if_pos h2]
          exact List.mem_append_left _ hx
        · rw [if_neg h2]; exact hx

theorem resolveFold_warn_added (idx : List OutEntry) (sname : String)
    (needs : List (String × SocketType)) :
    ∀ (acc : PkgSpec) (need : String × SocketType), need ∈ needs →
      2 ≤ (matchesFor idx sname need).length →
      ambiguityWarning need ∈ (needs.foldl (fun acc need =>
        if (matchesFor idx sname need).length = 1 then
          { acc with sockets :=
              addSocketIfMissing acc.sockets ⟨need.1, .input, need.2⟩ }
        else if 2 ≤ (matchesFor idx sname need).length then
          { acc with warnings := acc.warnings ++ [ambiguityWarning need] }
        else acc) acc).warnings := by
  induction needs with
  | nil => intro acc need h; cases h
  | cons need0 rest ih =>
      intro acc need hmem hlen
      rw [List.foldl_cons]
      rcases List.mem_cons.mp hmem with rfl | hmem2
      · have h1 : ¬ (matchesFor idx sname need).length = 1 := by omega
        rw [if_neg h1, if_pos hlen]
        apply resolveFold_warn_mono
        exact List.mem_append_right _ (List.mem_singleton.mpr rfl)
      · exact ih _ need hmem2 hlen

/-- Claim C8: the Input-Socket Resolver adds an input socket only for a
need with exactly one exact (normalized-name, type) match among the
output sockets of other specs; when two or more output sockets qualify
for a need, no input socket is created for it and a warning is
recorded. -/
theorem input_socket_resolution_exact_or_warned (specs : List PkgSpec)
    (s : PkgSpec) (hs : s ∈ specs) :
    resolveSpec (outputIndex specs) s ∈
      createInputSocketsBasedOnOutputSockets specs ∧
    (∀ k ∈ (resolveSpec (outputIndex specs) s).sockets, k ∉ s.sockets →
      ∃ need ∈ needsOf s,
        (matchesFor (outputIndex specs) s.name need).length = 1 ∧
        k = ⟨need.1, SocketDir.input, need.2⟩) ∧
    (∀ need ∈ needsOf s,
      2 ≤ (matchesFor (outputIndex specs) s.name need).length →
      ambiguityWarning need ∈ (resolveSpec (outputIndex specs) s).warnings ∧
      ∀ k ∈ (resolveSpec (outputIndex specs) s).sockets, k ∉ s.sockets →
        ¬(k.name = need.1 ∧ k.ty = need.2)) := by
  refine ⟨List.mem_map_of_mem _ hs, ?_, ?_⟩
  · intro k hk hnew
    rcases resolveFold_sockets (outputIndex specs) s.name (needsOf s) s k hk
      with hin | hneed
    · exact absurd hin hnew
    · exact hneed
  · intro need hneed hlen
    constructor
    · exact resolveFold_warn_added (outputIndex specs) s.name (needsOf s) s
        need hneed hlen
    · intro k hk hnew hcontra
      rcases resolveFold_sockets (outputIndex specs) s.name (needsOf s) s k hk
        with hin | ⟨need2, _, hlen2, hk2⟩
      · exact hnew hin
      · have h1 : need2.1 = need.1 := by rw [hk2] at hcontra; exact hcontra.1
        have h2 : need2.2 = need.2 := by rw [hk2] at hcontra; exact hcontra.2
        have hsame : need2 = need := Prod.ext h1 h2
        rw [hsame] at hlen2
        omega

theorem input_socket_resolution_exact_or_warned_witness :
    ambiguityWarning ("Arn", SocketType.string) ∈
      (resolveSpec (outputIndex [outSpecA, outSpecB, inSpecC])
        inSpecC).warnings ∧
    (∀ k ∈ (resolveSpec (outputIndex [outSpecA, outSpecB, inSpecC])
        inSpecC).sockets, k ∉ inSpecC.sockets →
      ¬(k.name = "Arn" ∧ k.ty = SocketType.string)) :=
  (input_socket_resolution_exact_or_warned [outSpecA, outSpecB, inSpecC]
    inSpecC (by decide)).2.2 ("Arn", SocketType.string) (by decide)
    (by decide)

theorem mem_foldl_addIfMissingBy_inv {α β : Type} [DecidableEq β]
    (key : α → β) (xs : List α) (y : α) :
    ∀ l : List α, y ∈ xs.foldl (addIfMissingBy key) l → y ∈ l ∨ y ∈ xs := by
  induction xs with
  | nil => intro l h; exact Or.inl h
  | cons x rest ih =>
      intro l h
      rcases ih _ h with hin | hin
      · rcases mem_addIfMissingBy_inv key l x y hin with h2 | h2
        · exact Or.inl h2
        · exact Or.inr (h2 ▸ List.mem_cons_self x rest)
      · exact Or.inr (List.mem_cons_of_mem x hin)

theorem keyPresent_eq_false_iff {α β : Type} [DecidableEq β]
    (key : α → β) (l : List α) (b : β) :
    keyPresent key l b = false ↔ ∀ y ∈ l, key y ≠ b := by
  simp [keyPresent]

theorem addFuncs_funcs_names (k : FuncKind) (names : List String)
    (s : PkgSpec) (f : FuncSpec) (hf : f ∈ (addFuncs k names s).funcs) :
    f ∈ s.funcs ∨ f.name ∈ names := by
  have hf2 : f ∈ (names.map (mkFunc k)).foldl addFuncIfMissing s.funcs := hf
  rw [addFuncIfMissing_eq] at hf2
  rcases mem_foldl_addIfMissingBy_inv FuncSpec.name _ f _ hf2 with h | h
  · exact Or.inl h
  · right
    obtain ⟨n, hn, hfn⟩ := List.mem_map.mp h
    rw [← hfn]
    exact hn

theorem buildSpecs_funcs_nil (db : List RawSchema) :
    ∀ s ∈ (buildSpecs db).1, s.funcs = [] := by
  intro s hs
  rw [buildSpecs_eq] at hs
  obtain ⟨cf, hcf, hok⟩ := List.mem_filterMap.mp hs
  cases hh : pkgSpecFromCf cf with
  | ok sp =>
      rw [hh] at hok
      simp [Except.toOption] at hok
      rw [← hok]
      exact (pkgSpecFromCf_ok_shape cf sp hh).2.2.2.1
  | error e =>
      rw [hh] at hok
      simp [Except.toOption] at hok

theorem preIntrinsic_funcs_menu (db : List RawSchema) :
    ∀ s ∈ generateSubAssets (generateDefaultManagementFuncs
      (generateDefaultLeafFuncs (generateDefaultActionFuncs
        (addDefaultPropsAndSockets (generateOutputSocketsFromResourceProps
          (buildSpecs db).1))))),
      ∀ f ∈ s.funcs, f.name ∈ menuFuncNames := by
  intro s hs f hf
  rcases List.mem_append.mp hs with hl | hr
  · obtain ⟨s5, hs5, rfl⟩ := List.mem_map.mp hl
    have hf5 : f ∈ s5.funcs := hf
    obtain ⟨s4, hs4, rfl⟩ := List.mem_map.mp hs5
    rcases addFuncs_funcs_names _ _ _ f hf5 with hf4 | hname
    · obtain ⟨s3, hs3, rfl⟩ := List.mem_map.mp hs4
      rcases addFuncs_funcs_names _ _ _ f hf4 with hf3 | hname
      · obtain ⟨s2, hs2, rfl⟩ := List.mem_map.mp hs3
        rcases addFuncs_funcs_names _ _ _ f hf3 with hf2 | hname
        · obtain ⟨s1, hs1, rfl⟩ := List.mem_map.mp hs2
          have hf1 : f ∈ s1.funcs := hf2
          obtain ⟨s0, hs0, rfl⟩ := List.mem_map.mp hs1
          rw [deriveOutputSockets_funcs s0, buildSpecs_funcs_nil db s0 hs0]
            at hf1
          cases hf1
        · exact List.mem_append_left _ (List.mem_append_left _ hname)
      · exact List.mem_append_left _ (List.mem_append_right _ hname)
    · exact List.mem_append_right _ hname
  · obtain ⟨t, ht, rfl⟩ := List.mem_map.mp hr
    have : f ∈ ([] : List FuncSpec) := hf
    cases this

/-- Claim C2: generateSiSpecs applies the pipeline stages to the whole
collection strictly in the source order — output-socket derivation,
defaults, action, leaf and management function generation, sub-asset
extraction, intrinsic attachment, input-socket resolution, asset
function synthesis, and identity reconciliation last — and because
intrinsic attachment runs after sub-asset extraction, every spec at that
stage, sub-assets included, carries every intrinsic function. -/
theorem pipeline_stage_order (db : List RawSchema) (ex : List PkgSpec)
    (fs : FileSystem) (w : String → Bool) :
    (generateSiSpecs db ex fs w).specs =
      updateSchemaIdsForExistingSpecs ex (generateAssetFuncs
        (createInputSocketsBasedOnOutputSockets (generateIntrinsicFuncs
          (generateSubAssets (generateDefaultManagementFuncs
            (generateDefaultLeafFuncs (generateDefaultActionFuncs
              (addDefaultPropsAndSockets
                (generateOutputSocketsFromResourceProps
                  (buildSpecs db).1))))))))) ∧
    (∀ s ∈ generateIntrinsicFuncs (generateSubAssets
        (generateDefaultManagementFuncs (generateDefaultLeafFuncs
          (generateDefaultActionFuncs (addDefaultPropsAndSockets
            (generateOutputSocketsFromResourceProps
              (buildSpecs db).1)))))),
      ∀ n ∈ intrinsicFuncNames, mkFunc FuncKind.intrinsic n ∈ s.funcs) := by
  refine ⟨rfl, ?_⟩
  intro s hs n hn
  obtain ⟨s6, hs6, rfl⟩ := List.mem_map.mp hs
  show mkFunc FuncKind.intrinsic n ∈
    (intrinsicFuncNames.map (mkFunc FuncKind.intrinsic)).foldl
      addFuncIfMissing s6.funcs
  rw [addFuncIfMissing_eq]
  apply mem_foldl_addIfMissingBy_self FuncSpec.name _ _
    (List.mem_map_of_mem _ hn)
  · show ((intrinsicFuncNames.map (mkFunc FuncKind.intrinsic)).map
      FuncSpec.name).Nodup
    rw [List.map_map]
    have : (FuncSpec.name ∘ mkFunc FuncKind.intrinsic) = fun n => n := rfl
    rw [this]
    simp [intrinsicFuncNames]
  · intro z hz
    rw [keyPresent_eq_false_iff]
    intro f hfmem hcontra
    have hmenu : f.name ∈ menuFuncNames :=
      preIntrinsic_funcs_menu db s6 hs6 f hfmem
    obtain ⟨zn, hzn, hz2⟩ := List.mem_map.mp hz
    have hzname : z.name = zn := by rw [← hz2]; rfl
    have hfz : f.name ∈ intrinsicFuncNames := by
      rw [hcontra, hzname]
      exact hzn
    have hdisj : ∀ m ∈ intrinsicFuncNames, ¬ m ∈ menuFuncNames := by decide
    exact hdisj f.name hfz hmenu

theorem pipeline_stage_order_witness :
    ∃ s ∈ generateIntrinsicFuncs (generateSubAssets
        (generateDefaultManagementFuncs (generateDefaultLeafFuncs
          (generateDefaultActionFuncs (addDefaultPropsAndSockets
            (generateOutputSocketsFromResourceProps
              (buildSpecs [sampleQueue, sampleTopic]).1)))))),
      s.parent.isSome = true ∧
      mkFunc FuncKind.intrinsic "siIdentity" ∈ s.funcs := by
  obtain ⟨s6, hs6, hps⟩ :
      ∃ s ∈ generateSubAssets (generateDefaultManagementFuncs
        (generateDefaultLeafFuncs (generateDefaultActionFuncs
          (addDefaultPropsAndSockets (generateOutputSocketsFromResourceProps
            (buildSpecs [sampleQueue, sampleTopic]).1))))),
        s.parent.isSome = true := by decide
  refine ⟨addFuncs FuncKind.intrinsic intrinsicFuncNames s6,
    List.mem_map_of_mem _ hs6, hps, ?_⟩
  exact (pipeline_stage_order [sampleQueue, sampleTopic] [] [] (fun _ => true)).2
    (addFuncs FuncKind.intrinsic intrinsicFuncNames s6)
    (List.mem_map_of_mem _ hs6) "siIdentity" (by decide)

theorem lookupShape_append_of_some (tb : List SubAssetEntry)
    (x : SubAssetEntry) (S : List PropEntry) (n : String)
    (h : lookupShape tb S = some n) :
    lookupShape (tb ++ [x]) S = some n := by
  unfold lookupShape at *
  induction tb with
  | nil => simp at h
  | cons t rest ih =>
      rw [List.cons_append]
      cases hc : decide (t.shape = S) with
      | true =>
          simp only [List.find?, hc] at h ⊢
          exact h
      | false =>
          simp only [List.find?, hc] at h ⊢
          exact ih h

theorem lookupShape_append_self (tb : List SubAssetEntry)
    (x : SubAssetEntry) (S : List PropEntry) (hx : x.shape = S)
    (h : lookupShape tb S = none) :
    lookupShape (tb ++ [x]) S = some x.subName := by
  unfold lookupShape at *
  induction tb with
  | nil =>
      rw [List.nil_append]
      have hpos : decide (x.shape = S) = true := by simp [hx]
      simp only [List.find?, hpos]
      rfl
  | cons t rest ih =>
      rw [List.cons_append]
      cases hc : decide (t.shape = S) with
      | true =>
          simp only [List.find?, hc] at h
          simp at h
      | false =>
          simp only [List.find?, hc] at h ⊢
          exact ih h

theorem lookupShape_mem (tb : List SubAssetEntry) (S : List PropEntry)
    (n : String) (h : lookupShape tb S = some n) :
    ∃ t ∈ tb, t.shape = S ∧ t.subName = n := by
  unfold lookupShape at h
  cases hf : tb.find? (fun t => decide (t.shape = S)) with
  | none => rw [hf] at h; simp at h
  | some t =>
      rw [hf] at h
      have hmem : t ∈ tb := List.mem_of_find?_eq_some hf
      have hsh := List.find?_some hf
      refine ⟨t, hmem, by simpa using hsh, ?_⟩
      simpa using h

theorem collectSpecShapes_mono (s : PkgSpec) (S : List PropEntry)
    (n : String) (plist : List PropEntry) :
    ∀ tb : List SubAssetEntry,
      lookupShape tb S = some n →
      lookupShape (plist.foldl (fun tb e =>
        if isPromotable s.props e &&
            (lookupShape tb (shapeAt s.props e.path)).isNone then
          tb ++ [⟨shapeAt s.props e.path, subAssetNameFor e, s.name⟩]
        else tb) tb) S = some n := by
  induction plist with
  | nil => intro tb h; exact h
  | cons p rest ih =>
      intro tb h
      rw [List.foldl_cons]
      apply ih
      by_cases hc : (isPromotable s.props p &&
          (lookupShape tb (shapeAt s.props p.path)).isNone) = true
      · rw [if_pos hc]
        exact lookupShape_append_of_some tb _ S n h
      · rw [if_neg hc]
        exact h

theorem collectSpecShapes_covers (s : PkgSpec) (plist : List PropEntry) :
    ∀ (tb : List SubAssetEntry) (e : PropEntry),
      e ∈ plist → isPromotable s.props e = true →
      ∃ n, lookupShape (plist.foldl (fun tb e =>
        if isPromotable s.props e &&
            (lookupShape tb (shapeAt s.props e.path)).isNone then
          tb ++ [⟨shapeAt s.props e.path, subAssetNameFor e, s.name⟩]
        else tb) tb) (shapeAt s.props e.path) = some n := by
  induction plist with
  | nil => intro tb e he; cases he
  | cons p rest ih =>
      intro tb e he hprom
      rcases List.mem_cons.mp he with rfl | hmem
      · rw [List.foldl_cons]
        by_cases hl : (lookupShape tb (shapeAt s.props e.path)).isSome = true
        · obtain ⟨m, hm⟩ := Option.isSome_iff_exists.mp hl
          have hneg : ¬ ((isPromotable s.props e &&
              (lookupShape tb (shapeAt s.props e.path)).isNone) = true) := by
            rw [hm]
            simp
          rw [if_neg hneg]
          exact ⟨m, collectSpecShapes_mono s _ m rest tb hm⟩
        · have hm : lookupShape tb (shapeAt s.props e.path) = none := by
            rcases hx : lookupShape tb (shapeAt s.props e.path) with _ | m
            · rfl
            · rw [hx] at hl; simp at hl
          have hpos : (isPromotable s.props e &&
              (lookupShape tb (shapeAt s.props e.path)).isNone) = true := by
            rw [hprom, hm]
            rfl
          rw [if_pos hpos]
          exact ⟨subAssetNameFor e,
            collectSpecShapes_mono s _ _ rest _
              (lookupShape_append_self tb _ _ rfl hm)⟩
      · rw [List.foldl_cons]
        exact ih _ e hmem hprom

theorem collectShapes_fold_mono (S : List PropEntry) (n : String)
    (slist : List PkgSpec) :
    ∀ tb : List SubAssetEntry, lookupShape tb S = some n →
      lookupShape (slist.foldl collectSpecShapes tb) S = some n := by
  induction slist with
  | nil => intro tb h; exact h
  | cons s0 rest ih =>
      intro tb h
      rw [List.foldl_cons]
      exact ih _ (collectSpecShapes_mono s0 S n s0.props tb h)

theorem collectShapes_fold_covers (slist : List PkgSpec) :
    ∀ (tb : List SubAssetEntry) (s : PkgSpec) (e : PropEntry),
      s ∈ slist → e ∈ s.props → isPromotable s.props e = true →
      ∃ n, lookupShape (slist.foldl collectSpecShapes tb)
        (shapeAt s.props e.path) = some n := by
  induction slist with
  | nil => intro tb s e hs; cases hs
  | cons s0 rest ih =>
      intro tb s e hs he hprom
      rw [List.foldl_cons]
      rcases List.mem_cons.mp hs with rfl | hmem
      · obtain ⟨n, hn⟩ := collectSpecShapes_covers s s.props tb e he hprom
        exact ⟨n, collectShapes_fold_mono _ n rest _ hn⟩
      · exact ih _ s e hmem he hprom

theorem collectShapes_covers (specs : List PkgSpec) (s : PkgSpec)
    (e : PropEntry) (hs : s ∈ specs) (he : e ∈ s.props)
    (hprom : isPromotable s.props e = true) :
    ∃ n, lookupShape (collectShapes specs) (shapeAt s.props e.path) =
      some n :=
  collectShapes_fold_covers specs [] s e hs he hprom

theorem lookupShape_none (tb : List SubAssetEntry) (S : List PropEntry)
    (h : lookupShape tb S = none) : ∀ t ∈ tb, t.shape ≠ S := by
  intro t ht hcontra
  unfold lookupShape at h
  have hf : tb.find? (fun t => decide (t.shape = S)) = none :=
    Option.map_eq_none'.mp h
  have := List.find?_eq_none.mp hf t ht
  simp [hcontra] at this

theorem collectSpecShapes_shapes_nodup (s : PkgSpec)
    (plist : List PropEntry) :
    ∀ tb : List SubAssetEntry,
      tb.Pairwise (fun a b => a.shape ≠ b.shape) →
      (plist.foldl (fun tb e =>
        if isPromotable s.props e &&
            (lookupShape tb (shapeAt s.props e.path)).isNone then
          tb ++ [⟨shapeAt s.props e.path, subAssetNameFor e, s.name⟩]
        else tb) tb).Pairwise (fun a b => a.shape ≠ b.shape) := by
  induction plist with
  | nil => intro tb h; exact h
  | cons p rest ih =>
      intro tb h
      rw [List.foldl_cons]
      apply ih
      by_cases hc : (isPromotable s.props p &&
          (lookupShape tb (shapeAt s.props p.path)).isNone) = true
      · rw [if_pos hc]
        have hnone : lookupShape tb (shapeAt s.props p.path) = none := by
          have h2 := (Bool.and_eq_true _ _ |>.mp hc).2
          exact Option.isNone_iff_eq_none.mp h2
        rw [List.pairwise_append]
        refine ⟨h, List.pairwise_singleton _ _, ?_⟩
        intro a ha b hb
        rw [List.mem_singleton.mp hb]
        intro hcontra
        exact lookupShape_none tb _ hnone a ha hcontra
      · rw [if_neg hc]
        exact h

theorem collectShapes_shapes_nodup (specs : List PkgSpec) :
    (collectShapes specs).Pairwise (fun a b => a.shape ≠ b.shape) := by
  have hgen : ∀ (slist : List PkgSpec) (tb : List SubAssetEntry),
      tb.Pairwise (fun a b => a.shape ≠ b.shape) →
      (slist.foldl collectSpecShapes tb).Pairwise
        (fun a b => a.shape ≠ b.shape) := by
    intro slist
    induction slist with
    | nil => intro tb h; exact h
    | cons s0 rest ih =>
        intro tb h
        rw [List.foldl_cons]
        exact ih _ (collectSpecShapes_shapes_nodup s0 s0.props tb h)
  exact hgen specs [] (List.Pairwise.nil)

theorem pairwise_filter_shape_length (tb : List SubAssetEntry)
    (S : List PropEntry) (t : SubAssetEntry) :
    tb.Pairwise (fun a b => a.shape ≠ b.shape) → t ∈ tb → t.shape = S →
    (tb.filter (fun x => decide (x.shape = S))).length = 1 := by
  induction tb with
  | nil => intro _ ht; cases ht
  | cons a rest ih =>
      intro hnd ht hts
      rw [List.pairwise_cons] at hnd
      rcases List.mem_cons.mp ht with rfl | hmem
      · have hpos : decide (t.shape = S) = true := by simp [hts]
        rw [List.filter_cons, if_pos hpos]
        have hnil : rest.filter (fun x => decide (x.shape = S)) = [] := by
          apply List.filter_eq_nil_iff.mpr
          intro x hx
          have hne : t.shape ≠ x.shape := hnd.1 x hx
          simp only [decide_eq_true_eq]
          intro hcontra
          exact hne (by rw [hcontra, hts])
        rw [hnil]
        rfl
      · have hane : decide (a.shape = S) = false := by
          have hne : a.shape ≠ t.shape := hnd.1 t hmem
          simp only [decide_eq_false_iff_not]
          intro hcontra
          exact hne (by rw [hcontra, hts])
        rw [List.filter_cons, if_neg (by simp [hane])]
        exact ih hnd.2 hmem hts

theorem rewriteSpec_replaces (table : List SubAssetEntry) (s : PkgSpec)
    (e : PropEntry) (he : e ∈ s.props)
    (hprom : isPromotable s.props e = true) (n : String)
    (hn : lookupShape table (shapeAt s.props e.path) = some n) :
    { e with kind := PropKind.refTo n } ∈ (rewriteSpec table s).props := by
  apply List.mem_filterMap.mpr
  refine ⟨e, he, ?_⟩
  have hpromparts := Bool.and_eq_true _ _ |>.mp hprom
  have hnoabove : s.props.any (fun c =>
      isPromotable s.props c && strictlyAbove c.path e.path) = false := by
    rw [List.any_eq_false]
    intro c hc
    intro hcontra
    have hcparts := Bool.and_eq_true _ _ |>.mp hcontra
    have hcand : isCandidate s.props c = true :=
      (Bool.and_eq_true _ _ |>.mp hcparts.1).1
    have hanytrue : s.props.any (fun c =>
        isCandidate s.props c && strictlyAbove c.path e.path) = true := by
      rw [List.any_eq_true]
      exact ⟨c, hc, by rw [hcand, hcparts.2]; rfl⟩
    have hnot := hpromparts.2
    rw [hanytrue] at hnot
    simp at hnot
  have h1 : ¬ (s.props.any (fun c =>
      isPromotable s.props c && strictlyAbove c.path e.path) = true) := by
    rw [hnoabove]
    simp
  rw [if_neg h1, if_pos hprom, hn]

/-- Claim C7: two structurally identical promotable nested shapes, at
different paths or in different parent specs, give rise to exactly one
sub-asset spec (dedup by structural shape), and each occurrence is
replaced in its rewritten parent by a reference to that one sub-asset. -/
theorem subasset_structural_dedup (specs : List PkgSpec)
    (s1 s2 : PkgSpec) (e1 e2 : PropEntry) (hs1 : s1 ∈ specs)
    (hs2 : s2 ∈ specs) (he1 : e1 ∈ s1.props) (he2 : e2 ∈ s2.props)
    (hp1 : isPromotable s1.props e1 = true)
    (hp2 : isPromotable s2.props e2 = true)
    (hsh : shapeAt s2.props e2.path = shapeAt s1.props e1.path)
    (hpar : ∀ s ∈ specs, s.parent = none) :
    ∃ n, lookupShape (collectShapes specs) (shapeAt s1.props e1.path) =
        some n ∧
      ((generateSubAssets specs).filter (fun sp =>
        decide (sp.props = shapeAt s1.props e1.path) &&
          sp.parent.isSome)).length = 1 ∧
      { e1 with kind := PropKind.refTo n } ∈
        (rewriteSpec (collectShapes specs) s1).props ∧
      { e2 with kind := PropKind.refTo n } ∈
        (rewriteSpec (collectShapes specs) s2).props ∧
      rewriteSpec (collectShapes specs) s1 ∈ generateSubAssets specs ∧
      rewriteSpec (collectShapes specs) s2 ∈ generateSubAssets specs := by
  obtain ⟨n, hn⟩ := collectShapes_covers specs s1 e1 hs1 he1 hp1
  refine ⟨n, hn, ?_, ?_, ?_, ?_, ?_⟩
  · have htable := collectShapes_shapes_nodup specs
    obtain ⟨t, ht, hts, _⟩ := lookupShape_mem _ _ _ hn
    have hga : generateSubAssets specs =
        specs.map (rewriteSpec (collectShapes specs)) ++
          (collectShapes specs).map mkSubAsset := rfl
    rw [hga, List.filter_append]
    have hleft : (specs.map (rewriteSpec (collectShapes specs))).filter
        (fun sp => decide (sp.props = shapeAt s1.props e1.path) &&
          sp.parent.isSome) = [] := by
      apply List.filter_eq_nil_iff.mpr
      intro sp hsp
      obtain ⟨s, hs, rfl⟩ := List.mem_map.mp hsp
      have hpnone : (rewriteSpec (collectShapes specs) s).parent = none :=
        hpar s hs
      simp [hpnone]
    rw [hleft, List.nil_append, List.filter_map, List.length_map]
    have hcong : (collectShapes specs).filter
        ((fun sp => decide (sp.props = shapeAt s1.props e1.path) &&
          sp.parent.isSome) ∘ mkSubAsset) =
        (collectShapes specs).filter
          (fun x => decide (x.shape = shapeAt s1.props e1.path)) := by
      apply List.filter_congr
      intro x hx
      show (decide ((mkSubAsset x).props = shapeAt s1.props e1.path) &&
        (mkSubAsset x).parent.isSome) = _
      simp [mkSubAsset]
    rw [hcong]
    exact pairwise_filter_shape_length _ _ t htable ht hts
  · exact rewriteSpec_replaces _ s1 e1 he1 hp1 n hn
  · apply rewriteSpec_replaces _ s2 e2 he2 hp2 n
    rw [hsh]
    exact hn
  · exact List.mem_append_left _ (List.mem_map_of_mem _ hs1)
  · exact List.mem_append_left _ (List.mem_map_of_mem _ hs2)

theorem subasset_structural_dedup_witness :
    ∃ n, lookupShape (collectShapes [parentSpecA, parentSpecB])
        (shapeAt parentSpecA.props
          (PropEntry.mk ["Redrive"] PropKind.object false false false).path) =
        some n ∧
      ((generateSubAssets [parentSpecA, parentSpecB]).filter (fun sp =>
        decide (sp.props = shapeAt parentSpecA.props
          (PropEntry.mk ["Redrive"] PropKind.object false false false).path) &&
          sp.parent.isSome)).length = 1 ∧
      { PropEntry.mk ["Redrive"] PropKind.object false false false with
          kind := PropKind.refTo n } ∈
        (rewriteSpec (collectShapes [parentSpecA, parentSpecB])
          parentSpecA).props ∧
      { PropEntry.mk ["Policy"] PropKind.object false false false with
          kind := PropKind.refTo n } ∈
        (rewriteSpec (collectShapes [parentSpecA, parentSpecB])
          parentSpecB).props ∧
      rewriteSpec (collectShapes [parentSpecA, parentSpecB]) parentSpecA ∈
        generateSubAssets [parentSpecA, parentSpecB] ∧
      rewriteSpec (collectShapes [parentSpecA, parentSpecB]) parentSpecB ∈
        generateSubAssets [parentSpecA, parentSpecB] :=
  subasset_structural_dedup [parentSpecA, parentSpecB] parentSpecA
    parentSpecB (PropEntry.mk ["Redrive"] PropKind.object false false false)
    (PropEntry.mk ["Policy"] PropKind.object false false false)
    (by decide) (by decide) (by decide) (by decide) (by decide) (by decide)
    (by decide) (by decide)
